import Mathlib

/- Verification development for the Newmark time-integration core of the
   DMD-acoustic-coupled-systems repository.  The two scripts
   Code/5_rigid-transparent_porous.py and Code/7_speaker-transparent_fluid.py
   share the same numerical core inside their compute functions: assembly of
   the effective matrix A = K + (1/(beta dt^2)) M + (gamma/(beta dt)) C, one LU
   factorization, an initial-acceleration solve against M, and the per-step
   Newmark recurrence.  Matrices are modelled over the rationals; the external
   FEniCS collaborators (LU factorization, the solve against M, the boundary
   operator and the forcing sampler) are parameters of the embedding, exactly
   as the spec delegates them.  Library-performed operations are additionally
   recorded in an event trace so that counting claims (one factorization, Nt+1
   solves, recorded times) can be stated. -/

namespace DMDAcoustic

/-- Degrees-of-freedom vectors: one rational per DOF. -/
abbrev Vec (n : ℕ) := Fin n → ℚ

/-- Square system matrices over the DOFs. -/
abbrev Mat (n : ℕ) := Matrix (Fin n) (Fin n) ℚ

/-- Data consumed by the Newmark core of compute: the three assembled matrices
M (mass, A_mass), C (damping, A_damping), K (stiffness, A_stiff), the scheme
coefficients beta and gamma, the step size dt, the forcing sampler f (the
interpolation of force at a given time), the boundary operator on vectors
(bc.apply on b_vec; it receives the current time because in the speaker script
the Dirichlet value is the harmonic oscillator at that time) and the boundary
operator on matrices (bc.apply on A). -/
structure NewmarkParams (n : ℕ) where
  M : Mat n
  C : Mat n
  K : Mat n
  beta : ℚ
  gamma : ℚ
  dt : ℚ
  f : ℚ → Vec n
  bcVec : ℚ → Vec n → Vec n
  bcMat : Mat n → Mat n

/-- The state triple carried across time steps: displacement y0, velocity v0
and acceleration a0 of the scripts. -/
structure NewmarkState (n : ℕ) where
  y : Vec n
  v : Vec n
  a : Vec n

/-- Argument of A_mass.mult in the loop body: the mass predictor
a0 U + a2 U. + a3 U.. of the comment, lines 238 and 314. -/
def predM {n : ℕ} (P : NewmarkParams n) (st : NewmarkState n) : Vec n :=
  (1 / (P.beta * P.dt ^ 2)) • st.y + (1 / (P.beta * P.dt)) • st.v
    + (1 / (2 * P.beta) - 1) • st.a

/-- Argument of A_damping.mult in the loop body, lines 239 and 315. -/
def predC {n : ℕ} (P : NewmarkParams n) (st : NewmarkState n) : Vec n :=
  (P.gamma / (P.beta * P.dt)) • st.y + (P.gamma / P.beta - 1) • st.v
    + (P.dt / 2 * (P.gamma / P.beta - 2)) • st.a

/-- The effective load b_vec = b_rhs + b_mass + b_damping of lines 241 and 317,
before the boundary operator is applied. -/
def effectiveLoad {n : ℕ} (P : NewmarkParams n) (st : NewmarkState n) (t1 : ℚ) : Vec n :=
  P.f t1 + P.M.mulVec (predM P st) + P.C.mulVec (predC P st)

/-- One iteration of the time loop (lines 230-254 and 305-330).  jt is the loop
index; the sampled time is dt*(jt+1).  s is the solve with the retained LU
factorization (solver.solve).  The returned triple is the state after the
in-place updates y0 := y1, v0 := v1, a0 := a1. -/
def newmarkStep {n : ℕ} (P : NewmarkParams n) (s : Vec n → Vec n)
    (st : NewmarkState n) (jt : ℕ) : NewmarkState n :=
  let t1 : ℚ := P.dt * ((jt + 1 : ℕ) : ℚ)
  let b_vec := P.bcVec t1 (effectiveLoad P st t1)
  let y1 := s b_vec
  let a1 := (1 / (P.beta * P.dt ^ 2)) • (y1 - st.y) - (1 / (P.beta * P.dt)) • st.v
    - (1 / (2 * P.beta) - 1) • st.a
  let v1 := (P.gamma / (P.beta * P.dt)) • (y1 - st.y) - (P.gamma / P.beta - 1) • st.v
    - ((P.gamma / (2 * P.beta) - 1) * P.dt) • st.a
  ⟨y1, v1, a1⟩

/-- The effective stiffness matrix of lines 170-173 and 245-248:
A = K + (1/(beta dt^2)) M + (gamma/(beta dt)) C with the boundary operator
then applied to A (bc.apply(A)). -/
def effectiveMatrix {n : ℕ} (P : NewmarkParams n) : Mat n :=
  P.bcMat (P.K + (1 / (P.beta * P.dt ^ 2)) • P.M + (P.gamma / (P.beta * P.dt)) • P.C)

/-- Observable calls into the external linear-algebra collaborators, recorded
in order: the one LU factorization of A (LUSolver(A)), the initial solve
against the mass matrix (solve(A_mass, a0, rhs)), the sampling of the forcing
term and of the harmonic boundary value at a time, the per-step solve with the
retained factorization of A, the sampling of the exact reference solution, and
the recording of a state to the output file at a time. -/
inductive Event (n : ℕ) where
  | factorize (A : Mat n)
  | massSolve (rhs : Vec n)
  | sampleLoad (t : ℚ)
  | applyBC (t : ℚ)
  | stepSolve (A : Mat n) (b : Vec n)
  | sampleExact (t : ℚ)
  | record (t : ℚ)

/-- The events emitted by one loop iteration, in source order: force.t and
harmOscilator.t are set to dt*(jt+1) and sampled, bc.apply(b_vec) uses that
time, solver.solve runs against the factorization of A, uex.t is set to
dt*(jt+1), and the state is written at time dt*(jt+1) (Nplot = 1, so every
step is written). -/
def stepTrace {n : ℕ} (P : NewmarkParams n) (st : NewmarkState n) (jt : ℕ) :
    List (Event n) :=
  [Event.sampleLoad (P.dt * ((jt + 1 : ℕ) : ℚ)),
   Event.applyBC (P.dt * ((jt + 1 : ℕ) : ℚ)),
   Event.stepSolve (effectiveMatrix P)
     (P.bcVec (P.dt * ((jt + 1 : ℕ) : ℚ))
       (effectiveLoad P st (P.dt * ((jt + 1 : ℕ) : ℚ)))),
   Event.sampleExact (P.dt * ((jt + 1 : ℕ) : ℚ)),
   Event.record (P.dt * ((jt + 1 : ℕ) : ℚ))]

/-- The time loop: starting from state st at loop index jt, run k more
iterations, threading the state and concatenating the emitted events. -/
def runSteps {n : ℕ} (P : NewmarkParams n) (s : Vec n → Vec n) :
    NewmarkState n → ℕ → ℕ → NewmarkState n × List (Event n)
  | st, _, 0 => (st, [])
  | st, jt, Nat.succ k =>
    let st1 := newmarkStep P s st jt
    let rest := runSteps P s st1 (jt + 1) k
    (rest.1, stepTrace P st jt ++ rest.2)

/-- Conversion of a Python float to int as np.int does it: truncation toward
zero. -/
def pyInt (q : ℚ) : ℤ := if 0 ≤ q then ⌊q⌋ else ⌈q⌉

/-- The per-run inputs of compute beyond the Newmark parameters: the time
horizon and the interpolated initial displacement and velocity. -/
structure RunConfig (n : ℕ) where
  P : NewmarkParams n
  T_init : ℚ
  T_final : ℚ
  y_init : Vec n
  v_init : Vec n

/-- Nt = np.int((T_final - T_init) / dt), lines 165 and 240. -/
def numSteps {n : ℕ} (cfg : RunConfig n) : ℤ :=
  pyInt ((cfg.T_final - cfg.T_init) / cfg.P.dt)

/-- The one Python exception the embedded pipeline can raise: float division
by zero. -/
inductive PyError where
  | zeroDivisionError
  deriving DecidableEq

/-- The initial acceleration of lines 192-198 and 267-273: the external solve
msolve against the mass matrix applied to f(0) - K y_init - C v_init
(b_force - b_mass - b_damping of the source, where at that point b_mass holds
K y0 and b_damping holds C v0). -/
def initialAccel {n : ℕ} (cfg : RunConfig n) (msolve : Vec n → Vec n) : Vec n :=
  msolve (cfg.P.f 0 - cfg.P.K.mulVec cfg.y_init - cfg.P.C.mulVec cfg.v_init)

/-- The compute pipeline from the computation of Nt to the end of the time
loop.  lu is the external LU factorization: applied to a matrix it returns the
solve with the retained factorization; it is applied exactly once, to the
effective matrix.  msolve is the external direct solve against the mass matrix
used once for the initial acceleration.  Dividing by dt = 0 raises
ZeroDivisionError at the computation of Nt, before any assembly; no other
validation of the scheme parameters exists in the source.  The loop runs
range(Nt + 1), which is empty when Nt + 1 is not positive. -/
def computeRun {n : ℕ} (cfg : RunConfig n) (lu : Mat n → Vec n → Vec n)
    (msolve : Vec n → Vec n) :
    Except PyError (NewmarkState n × List (Event n)) :=
  if cfg.P.dt = 0 then Except.error PyError.zeroDivisionError
  else
    let A := effectiveMatrix cfg.P
    let s := lu A
    let st0 : NewmarkState n := ⟨cfg.y_init, cfg.v_init, initialAccel cfg msolve⟩
    let res := runSteps cfg.P s st0 0 (numSteps cfg + 1).toNat
    Except.ok (res.1,
      Event.factorize A
        :: Event.massSolve (cfg.P.f 0 - cfg.P.K.mulVec cfg.y_init
              - cfg.P.C.mulVec cfg.v_init)
        :: Event.record 0
        :: res.2)

/-- Recognizer for factorization events. -/
def isFactorize {n : ℕ} : Event n → Bool
  | Event.factorize _ => true
  | _ => false

/-- Number of LU factorizations recorded in a trace. -/
def countFactorize {n : ℕ} (tr : List (Event n)) : ℕ :=
  (tr.filter isFactorize).length

/-- Recognizer for per-step solves with the retained factorization. -/
def isStepSolve {n : ℕ} : Event n → Bool
  | Event.stepSolve _ _ => true
  | _ => false

/-- Number of per-step solves recorded in a trace. -/
def countStepSolve {n : ℕ} (tr : List (Event n)) : ℕ :=
  (tr.filter isStepSolve).length

/-- The time of a forcing-term sampling event, if any. -/
def sampleLoadTime {n : ℕ} : Event n → Option ℚ
  | Event.sampleLoad t => some t
  | _ => none

/-- The times at which the forcing term is sampled, in trace order. -/
def sampleLoadTimes {n : ℕ} (tr : List (Event n)) : List ℚ :=
  tr.filterMap sampleLoadTime

/-- The time of a boundary-operator application, if any. -/
def applyBCTime {n : ℕ} : Event n → Option ℚ
  | Event.applyBC t => some t
  | _ => none

/-- The times at which the boundary operator (and hence the speaker harmonic
boundary value) is evaluated on the load vector, in trace order. -/
def applyBCTimes {n : ℕ} (tr : List (Event n)) : List ℚ :=
  tr.filterMap applyBCTime

/-- The time of an exact-reference-solution sampling event, if any. -/
def sampleExactTime {n : ℕ} : Event n → Option ℚ
  | Event.sampleExact t => some t
  | _ => none

/-- The times at which the exact reference solution is sampled, in trace
order. -/
def sampleExactTimes {n : ℕ} (tr : List (Event n)) : List ℚ :=
  tr.filterMap sampleExactTime

/-- The time of a state-recording event, if any. -/
def recordTime {n : ℕ} : Event n → Option ℚ
  | Event.record t => some t
  | _ => none

/-- The times at which states are recorded to the output file, in trace
order. -/
def recordTimes {n : ℕ} (tr : List (Event n)) : List ℚ :=
  tr.filterMap recordTime

/-- The right-hand side of a solve against the mass matrix, if any. -/
def massSolveRhs {n : ℕ} : Event n → Option (Vec n)
  | Event.massSolve rhs => some rhs
  | _ => none

/-- The right-hand sides of the solves against the mass matrix, in trace
order. -/
def massSolveRhss {n : ℕ} (tr : List (Event n)) : List (Vec n) :=
  tr.filterMap massSolveRhs

/-- Python float division: raises ZeroDivisionError on a zero denominator. -/
def pyDiv (a b : ℚ) : Except PyError ℚ :=
  if b = 0 then Except.error PyError.zeroDivisionError else Except.ok (a / b)

/-- computeError of 5_rigid-transparent_porous.py, lines 36-37:
100 * errornorm(approximateSol, exactSol) / norm(exactSol), with no guard on
the denominator.  The two norms are computed by the external FEniCS library;
the embedding takes their values as arguments. -/
def computeError (errNrm nrm : ℚ) : Except PyError ℚ :=
  pyDiv (100 * errNrm) nrm

/-- The final error computation of 7_speaker-transparent_fluid.py, lines
357-360: if norm(solution) != 0 the relative error in percent, else the
sentinel -1. -/
def speakerFinalError (errNrm nrm : ℚ) : ℚ :=
  if nrm ≠ 0 then 100 * errNrm / nrm else -1

/-- The scripts hardcode beta = 0.25 and gamma = 0.5 (lines 161-162 and
236-237); every run uses these scheme coefficients. -/
def scriptParams (n : ℕ) (M C K : Mat n) (dt : ℚ) (f : ℚ → Vec n)
    (bcVec : ℚ → Vec n → Vec n) (bcMat : Mat n → Mat n) : NewmarkParams n :=
  ⟨M, C, K, 1 / 4, 1 / 2, dt, f, bcVec, bcMat⟩

/- Concrete one-DOF instances used as witnesses and counterexamples. -/

/-- A concrete 1x1 mass matrix with entry 1. -/
def wM : Mat 1 := Matrix.of fun _ _ => (1 : ℚ)

/-- A concrete 1x1 matrix with entry 2, a mutated mass matrix. -/
def wM2 : Mat 1 := Matrix.of fun _ _ => (2 : ℚ)

/-- Concrete Newmark parameters: M = wM, C = 0, K = 0, beta = 1/4,
gamma = 1/2, dt = 1, zero forcing, identity boundary operators. -/
def wP : NewmarkParams 1 :=
  ⟨wM, 0, 0, 1 / 4, 1 / 2, 1, fun _ _ => 0, fun _ b => b, id⟩

/-- wP after a mutation of the mass matrix to wM2; every other field is
unchanged. -/
def wPM2 : NewmarkParams 1 := { wP with M := wM2 }

/-- The exact solve for the effective matrix of wP, which equals 4 wM:
multiply by 1/4. -/
def wS : Vec 1 → Vec 1 := fun b => (1 / 4 : ℚ) • b

/-- A concrete state: displacement 1, velocity 0, acceleration 0. -/
def wSt : NewmarkState 1 := ⟨fun _ => 1, fun _ => 0, fun _ => 0⟩

/-- A concrete run configuration with dt = 1 over the horizon [0, 2]. -/
def wCfg : RunConfig 1 := ⟨wP, 0, 2, fun _ => 1, fun _ => 0⟩

/-- A concrete run configuration with the invalid step dt = -1. -/
def wCfgNeg : RunConfig 1 := ⟨{ wP with dt := -1 }, 0, 1, fun _ => 1, fun _ => 0⟩

/-- A concrete run configuration with the invalid step dt = 0. -/
def wCfgZero : RunConfig 1 := ⟨{ wP with dt := 0 }, 0, 1, fun _ => 1, fun _ => 0⟩

/-- The configuration of the step-count scenario: T_init = 0,
T_final = 0.5/343 = 1/686, dt = 1e-5 = 1/100000. -/
def wCfg146 : RunConfig 1 :=
  ⟨{ wP with dt := 1 / 100000 }, 0, 1 / 686, fun _ => 1, fun _ => 0⟩

/-- A concrete run configuration with a nonzero initial time. -/
def wCfgShift : RunConfig 1 := ⟨wP, 1 / 2, 2, fun _ => 1, fun _ => 0⟩

/- Helper lemmas about the trace of a run. -/

lemma runSteps_snd_succ {n : ℕ} (P : NewmarkParams n) (s : Vec n → Vec n)
    (st : NewmarkState n) (jt k : ℕ) :
    (runSteps P s st jt (k + 1)).2
      = stepTrace P st jt ++ (runSteps P s (newmarkStep P s st jt) (jt + 1) k).2 := rfl

lemma countFactorize_append {n : ℕ} (t1 t2 : List (Event n)) :
    countFactorize (t1 ++ t2) = countFactorize t1 + countFactorize t2 := by
  simp [countFactorize, List.filter_append]

lemma countFactorize_runSteps {n : ℕ} (P : NewmarkParams n) (s : Vec n → Vec n) :
    ∀ (k : ℕ) (st : NewmarkState n) (jt : ℕ),
      countFactorize (runSteps P s st jt k).2 = 0 := by
  intro k
  induction k with
  | zero => intro st jt; rfl
  | succ k ih =>
    intro st jt
    rw [runSteps_snd_succ, countFactorize_append, ih]
    rfl

lemma countStepSolve_append {n : ℕ} (t1 t2 : List (Event n)) :
    countStepSolve (t1 ++ t2) = countStepSolve t1 + countStepSolve t2 := by
  simp [countStepSolve, List.filter_append]

lemma countStepSolve_runSteps {n : ℕ} (P : NewmarkParams n) (s : Vec n → Vec n) :
    ∀ (k : ℕ) (st : NewmarkState n) (jt : ℕ),
      countStepSolve (runSteps P s st jt k).2 = k := by
  intro k
  induction k with
  | zero => intro st jt; rfl
  | succ k ih =>
    intro st jt
    rw [runSteps_snd_succ, countStepSolve_append, ih]
    rw [show countStepSolve (stepTrace P st jt) = 1 from rfl]
    omega

lemma stepSolve_mem_runSteps {n : ℕ} (P : NewmarkParams n) (s : Vec n → Vec n) :
    ∀ (k : ℕ) (st : NewmarkState n) (jt : ℕ) (A : Mat n) (b : Vec n),
      Event.stepSolve A b ∈ (runSteps P s st jt k).2 → A = effectiveMatrix P := by
  intro k
  induction k with
  | zero => intro st jt A b h; exact absurd h (List.not_mem_nil _)
  | succ k ih =>
    intro st jt A b h
    rw [runSteps_snd_succ] at h
    rcases List.mem_append.mp h with h2 | h2
    · simp only [stepTrace, List.mem_cons, List.not_mem_nil, or_false] at h2
      rcases h2 with h3 | h3 | h3 | h3 | h3
      · exact absurd h3 (by simp)
      · exact absurd h3 (by simp)
      · exact (Event.stepSolve.inj h3).1
      · exact absurd h3 (by simp)
      · exact absurd h3 (by simp)
    · exact ih (newmarkStep P s st jt) (jt + 1) A b h2

lemma filterMap_runSteps_times {n : ℕ} (P : NewmarkParams n) (s : Vec n → Vec n)
    (sel : Event n → Option ℚ)
    (hsel : ∀ (st : NewmarkState n) (jt : ℕ),
      (stepTrace P st jt).filterMap sel = [P.dt * ((jt + 1 : ℕ) : ℚ)]) :
    ∀ (k : ℕ) (st : NewmarkState n) (jt : ℕ),
      (runSteps P s st jt k).2.filterMap sel
        = (List.range k).map (fun i => P.dt * ((jt + i + 1 : ℕ) : ℚ)) := by
  intro k
  induction k with
  | zero => intro st jt; rfl
  | succ k ih =>
    intro st jt
    rw [runSteps_snd_succ, List.filterMap_append, hsel, ih, List.range_succ_eq_map]
    simp only [List.map_cons, List.map_map, List.singleton_append, Function.comp]
    congr 1
    apply List.map_congr_left
    intro i _
    simp only [Function.comp_apply, Nat.succ_eq_add_one]
    push_cast
    ring

lemma sampleLoadTimes_runSteps {n : ℕ} (P : NewmarkParams n) (s : Vec n → Vec n)
    (k : ℕ) (st : NewmarkState n) (jt : ℕ) :
    sampleLoadTimes (runSteps P s st jt k).2
      = (List.range k).map (fun i => P.dt * ((jt + i + 1 : ℕ) : ℚ)) :=
  filterMap_runSteps_times P s sampleLoadTime (fun _ _ => rfl) k st jt

lemma applyBCTimes_runSteps {n : ℕ} (P : NewmarkParams n) (s : Vec n → Vec n)
    (k : ℕ) (st : NewmarkState n) (jt : ℕ) :
    applyBCTimes (runSteps P s st jt k).2
      = (List.range k).map (fun i => P.dt * ((jt + i + 1 : ℕ) : ℚ)) :=
  filterMap_runSteps_times P s applyBCTime (fun _ _ => rfl) k st jt

lemma sampleExactTimes_runSteps {n : ℕ} (P : NewmarkParams n) (s : Vec n → Vec n)
    (k : ℕ) (st : NewmarkState n) (jt : ℕ) :
    sampleExactTimes (runSteps P s st jt k).2
      = (List.range k).map (fun i => P.dt * ((jt + i + 1 : ℕ) : ℚ)) :=
  filterMap_runSteps_times P s sampleExactTime (fun _ _ => rfl) k st jt

lemma recordTimes_runSteps {n : ℕ} (P : NewmarkParams n) (s : Vec n → Vec n)
    (k : ℕ) (st : NewmarkState n) (jt : ℕ) :
    recordTimes (runSteps P s st jt k).2
      = (List.range k).map (fun i => P.dt * ((jt + i + 1 : ℕ) : ℚ)) :=
  filterMap_runSteps_times P s recordTime (fun _ _ => rfl) k st jt

lemma massSolveRhss_runSteps {n : ℕ} (P : NewmarkParams n) (s : Vec n → Vec n) :
    ∀ (k : ℕ) (st : NewmarkState n) (jt : ℕ),
      massSolveRhss (runSteps P s st jt k).2 = [] := by
  intro k
  induction k with
  | zero => intro st jt; rfl
  | succ k ih =>
    intro st jt
    rw [runSteps_snd_succ]
    unfold massSolveRhss
    rw [List.filterMap_append]
    have h := ih (newmarkStep P s st jt) (jt + 1)
    unfold massSolveRhss at h
    rw [h]
    rfl

lemma computeRun_eq {n : ℕ} (cfg : RunConfig n) (lu : Mat n → Vec n → Vec n)
    (msolve : Vec n → Vec n) (h : cfg.P.dt ≠ 0) :
    computeRun cfg lu msolve = Except.ok
      ((runSteps cfg.P (lu (effectiveMatrix cfg.P))
          ⟨cfg.y_init, cfg.v_init, initialAccel cfg msolve⟩ 0 (numSteps cfg + 1).toNat).1,
        Event.factorize (effectiveMatrix cfg.P)
          :: Event.massSolve (cfg.P.f 0 - cfg.P.K.mulVec cfg.y_init
                - cfg.P.C.mulVec cfg.v_init)
          :: Event.record 0
          :: (runSteps cfg.P (lu (effectiveMatrix cfg.P))
              ⟨cfg.y_init, cfg.v_init, initialAccel cfg msolve⟩ 0
              (numSteps cfg + 1).toNat).2) := by
  unfold computeRun
  rw [if_neg h]

lemma wS_exact : ∀ b : Vec 1, (effectiveMatrix wP).mulVec (wS b) = b := by
  intro b
  funext i
  fin_cases i
  norm_num [effectiveMatrix, wP, wM, wS, Matrix.mulVec, Matrix.dotProduct, Fin.sum_univ_one]
  ring

lemma wM_mulVec : ∀ b : Vec 1, wM.mulVec b = b := by
  intro b
  funext i
  fin_cases i
  simp [wM, Matrix.mulVec, Matrix.dotProduct, Fin.sum_univ_one]

lemma wStep_M_sensitive :
    (newmarkStep wP wS wSt 0).y 0 ≠ (newmarkStep wPM2 wS wSt 0).y 0 := by
  norm_num [newmarkStep, effectiveLoad, predM, predC, wP, wPM2, wS, wSt, wM, wM2,
    Matrix.mulVec, Matrix.dotProduct, Fin.sum_univ_one]

lemma numSteps_wCfgNeg : numSteps wCfgNeg = -1 := by
  have hq : (wCfgNeg.T_final - wCfgNeg.T_init) / wCfgNeg.P.dt = (-1 : ℚ) := by
    norm_num [wCfgNeg, wP]
  unfold numSteps pyInt
  rw [hq, if_neg (by norm_num)]
  rw [show (-1 : ℚ) = ((-1 : ℤ) : ℚ) by norm_num, Int.ceil_intCast]

lemma numSteps_wCfg146 : numSteps wCfg146 = 145 := by
  have hq : (wCfg146.T_final - wCfg146.T_init) / wCfg146.P.dt = (50000 / 343 : ℚ) := by
    norm_num [wCfg146, wP]
  unfold numSteps pyInt
  rw [hq, if_pos (by norm_num)]
  rw [Int.floor_eq_iff]
  constructor
  · push_cast
    norm_num
  · push_cast
    norm_num

lemma computeRun_wCfgNeg :
    computeRun wCfgNeg (fun _ b => b) id
      = Except.ok (⟨wCfgNeg.y_init, wCfgNeg.v_init, initialAccel wCfgNeg id⟩,
        [Event.factorize (effectiveMatrix wCfgNeg.P),
         Event.massSolve (wCfgNeg.P.f 0 - wCfgNeg.P.K.mulVec wCfgNeg.y_init
            - wCfgNeg.P.C.mulVec wCfgNeg.v_init),
         Event.record 0]) := by
  have h0 : wCfgNeg.P.dt ≠ 0 := by norm_num [wCfgNeg, wP]
  have h : (numSteps wCfgNeg + 1).toNat = 0 := by
    rw [numSteps_wCfgNeg]
    decide
  rw [computeRun_eq wCfgNeg _ _ h0, h]
  rfl

/- Claim theorems. -/

/-- C1: at every time step jt the effective load is
b = f(t+dt) + M ((1/(beta dt^2)) y0 + (1/(beta dt)) v0 + (1/(2 beta) - 1) a0)
+ C ((gamma/(beta dt)) y0 + (gamma/beta - 1) v0 + (dt/2)(gamma/beta - 2) a0),
the boundary operator is applied to b, and the new displacement y1 is the
solution of A y1 = b, obtained through the retained factorization s of the
effective matrix A. -/
theorem step_effective_load_and_solve {n : ℕ} (P : NewmarkParams n)
    (s : Vec n → Vec n) (st : NewmarkState n) (jt : ℕ)
    (hs : ∀ b, (effectiveMatrix P).mulVec (s b) = b) :
    (newmarkStep P s st jt).y
        = s (P.bcVec (P.dt * ((jt + 1 : ℕ) : ℚ))
            (P.f (P.dt * ((jt + 1 : ℕ) : ℚ))
              + P.M.mulVec ((1 / (P.beta * P.dt ^ 2)) • st.y
                  + (1 / (P.beta * P.dt)) • st.v + (1 / (2 * P.beta) - 1) • st.a)
              + P.C.mulVec ((P.gamma / (P.beta * P.dt)) • st.y
                  + (P.gamma / P.beta - 1) • st.v
                  + (P.dt / 2 * (P.gamma / P.beta - 2)) • st.a)))
      ∧ (effectiveMatrix P).mulVec ((newmarkStep P s st jt).y)
          = P.bcVec (P.dt * ((jt + 1 : ℕ) : ℚ))
              (effectiveLoad P st (P.dt * ((jt + 1 : ℕ) : ℚ))) :=
  ⟨rfl, hs _⟩

/-- Witness for C1 at a concrete one-DOF configuration with the exact solve
wS for the effective matrix of wP. -/
theorem step_effective_load_and_solve_witness :
    (effectiveMatrix wP).mulVec ((newmarkStep wP wS wSt 0).y)
      = wP.bcVec (wP.dt * ((0 + 1 : ℕ) : ℚ))
          (effectiveLoad wP wSt (wP.dt * ((0 + 1 : ℕ) : ℚ))) :=
  (step_effective_load_and_solve wP wS wSt 0 wS_exact).2

/-- C2: after solving, the new acceleration and velocity are the
back-substitution combinations of the new displacement with the pre-update
state, and the state triple threaded to the next iteration is exactly the
triple (y1, v1, a1) so produced. -/
theorem step_back_substitution {n : ℕ} (P : NewmarkParams n) (s : Vec n → Vec n)
    (st : NewmarkState n) (jt : ℕ) :
    (newmarkStep P s st jt).a
        = (1 / (P.beta * P.dt ^ 2)) • ((newmarkStep P s st jt).y - st.y)
          - (1 / (P.beta * P.dt)) • st.v - (1 / (2 * P.beta) - 1) • st.a
      ∧ (newmarkStep P s st jt).v
        = (P.gamma / (P.beta * P.dt)) • ((newmarkStep P s st jt).y - st.y)
          - (P.gamma / P.beta - 1) • st.v
          - ((P.gamma / (2 * P.beta) - 1) * P.dt) • st.a
      ∧ ∀ k, runSteps P s st jt (k + 1)
          = ((runSteps P s (newmarkStep P s st jt) (jt + 1) k).1,
             stepTrace P st jt ++ (runSteps P s (newmarkStep P s st jt) (jt + 1) k).2) :=
  ⟨rfl, rfl, fun _ => rfl⟩

/-- C3: the effective matrix is A = K + (1/(beta dt^2)) M + (gamma/(beta dt)) C
with the boundary operator applied, it is factorized exactly once per run, and
every per-step solve of the run uses that same A. -/
theorem assemble_once_and_reuse {n : ℕ} (cfg : RunConfig n)
    (lu : Mat n → Vec n → Vec n) (msolve : Vec n → Vec n)
    (hdt : 0 < cfg.P.dt) :
    effectiveMatrix cfg.P
        = cfg.P.bcMat (cfg.P.K + (1 / (cfg.P.beta * cfg.P.dt ^ 2)) • cfg.P.M
            + (cfg.P.gamma / (cfg.P.beta * cfg.P.dt)) • cfg.P.C)
      ∧ ∃ st tr, computeRun cfg lu msolve = Except.ok (st, tr)
          ∧ countFactorize tr = 1
          ∧ countStepSolve tr = (numSteps cfg + 1).toNat
          ∧ ∀ A b, Event.stepSolve A b ∈ tr → A = effectiveMatrix cfg.P := by
  refine ⟨rfl, _, _, computeRun_eq cfg lu msolve hdt.ne', ?_, ?_, ?_⟩
  · show countFactorize (Event.factorize _ :: Event.massSolve _ :: Event.record 0 :: _) = 1
    simp only [countFactorize, List.filter, isFactorize]
    have h := countFactorize_runSteps cfg.P (lu (effectiveMatrix cfg.P))
      ((numSteps cfg + 1).toNat) ⟨cfg.y_init, cfg.v_init, initialAccel cfg msolve⟩ 0
    simp only [countFactorize] at h
    simp [h]
  · show countStepSolve (Event.factorize _ :: Event.massSolve _ :: Event.record 0 :: _)
      = (numSteps cfg + 1).toNat
    simp only [countStepSolve, List.filter, isStepSolve]
    have h := countStepSolve_runSteps cfg.P (lu (effectiveMatrix cfg.P))
      ((numSteps cfg + 1).toNat) ⟨cfg.y_init, cfg.v_init, initialAccel cfg msolve⟩ 0
    simp only [countStepSolve] at h
    simp [h]
  · intro A b hmem
    simp only [List.mem_cons] at hmem
    rcases hmem with h3 | h3 | h3 | h3
    · exact absurd h3 (by simp)
    · exact absurd h3 (by simp)
    · exact absurd h3 (by simp)
    · exact stepSolve_mem_runSteps cfg.P (lu (effectiveMatrix cfg.P)) _ _ _ A b h3

/-- Witness for C3 at a concrete one-DOF run with dt = 1. -/
theorem assemble_once_and_reuse_witness :
    ∃ st tr, computeRun wCfg (fun _ b => b) id = Except.ok (st, tr)
      ∧ countFactorize tr = 1
      ∧ countStepSolve tr = (numSteps wCfg + 1).toNat
      ∧ ∀ A b, Event.stepSolve A b ∈ tr → A = effectiveMatrix wCfg.P :=
  (assemble_once_and_reuse wCfg (fun _ b => b) id (by norm_num [wCfg, wP])).2

/-- C4: the initial acceleration is obtained by one solve against the mass
matrix alone applied to f(0) - K y_init - C v_init; when that solve is exact
the initial state satisfies M a_init + C v_init + K y_init = f(0), and the run
trace contains exactly one solve against M, whose right-hand side is
f(0) - K y_init - C v_init, and it precedes the stepping loop. -/
theorem initial_acceleration_consistency {n : ℕ} (cfg : RunConfig n)
    (lu : Mat n → Vec n → Vec n) (msolve : Vec n → Vec n)
    (hm : ∀ b, cfg.P.M.mulVec (msolve b) = b) (hdt : cfg.P.dt ≠ 0) :
    cfg.P.M.mulVec (initialAccel cfg msolve) + cfg.P.C.mulVec cfg.v_init
        + cfg.P.K.mulVec cfg.y_init = cfg.P.f 0
      ∧ ∃ st tr, computeRun cfg lu msolve = Except.ok (st, tr)
          ∧ massSolveRhss tr
              = [cfg.P.f 0 - cfg.P.K.mulVec cfg.y_init - cfg.P.C.mulVec cfg.v_init] := by
  constructor
  · unfold initialAccel
    rw [hm]
    abel
  · refine ⟨_, _, computeRun_eq cfg lu msolve hdt, ?_⟩
    show massSolveRhss (Event.factorize _ :: Event.massSolve _ :: Event.record 0 :: _) = _
    simp only [massSolveRhss, List.filterMap_cons, massSolveRhs]
    have h := massSolveRhss_runSteps cfg.P (lu (effectiveMatrix cfg.P))
      ((numSteps cfg + 1).toNat) ⟨cfg.y_init, cfg.v_init, initialAccel cfg msolve⟩ 0
    simp only [massSolveRhss] at h
    simp [h]

/-- Witness for C4 at a concrete one-DOF run whose mass matrix is the
identity, so that the identity is an exact solve against it. -/
theorem initial_acceleration_consistency_witness :
    wCfg.P.M.mulVec (initialAccel wCfg id) + wCfg.P.C.mulVec wCfg.v_init
      + wCfg.P.K.mulVec wCfg.y_init = wCfg.P.f 0 :=
  (initial_acceleration_consistency wCfg (fun _ b => b) id
    (fun b => wM_mulVec b) (by norm_num [wCfg, wP])).1

/-- C5: for dt > 0 and T_final at least T_init, Nt is the floor of
(T_final - T_init)/dt, the loop performs exactly Nt + 1 per-step solves,
states are recorded at the times 0, dt, 2 dt, ..., (Nt+1) dt, giving Nt + 2
recorded states, and the final time (Nt+1) dt overruns the horizon length
T_final - T_init. -/
theorem step_count_and_recorded_times {n : ℕ} (cfg : RunConfig n)
    (lu : Mat n → Vec n → Vec n) (msolve : Vec n → Vec n)
    (hdt : 0 < cfg.P.dt) (hT : cfg.T_init ≤ cfg.T_final) :
    numSteps cfg = ⌊(cfg.T_final - cfg.T_init) / cfg.P.dt⌋
      ∧ cfg.T_final - cfg.T_init < ((numSteps cfg : ℚ) + 1) * cfg.P.dt
      ∧ ∃ st tr, computeRun cfg lu msolve = Except.ok (st, tr)
          ∧ countStepSolve tr = (numSteps cfg).toNat + 1
          ∧ recordTimes tr
              = 0 :: (List.range ((numSteps cfg).toNat + 1)).map
                  (fun jt => cfg.P.dt * ((jt + 1 : ℕ) : ℚ))
          ∧ (recordTimes tr).length = (numSteps cfg).toNat + 2 := by
  have hq : 0 ≤ (cfg.T_final - cfg.T_init) / cfg.P.dt :=
    div_nonneg (by linarith) hdt.le
  have hfl : numSteps cfg = ⌊(cfg.T_final - cfg.T_init) / cfg.P.dt⌋ := by
    unfold numSteps pyInt
    rw [if_pos hq]
  have hnn : 0 ≤ numSteps cfg := by
    rw [hfl]
    exact Int.floor_nonneg.mpr hq
  have hsteps : (numSteps cfg + 1).toNat = (numSteps cfg).toNat + 1 := by omega
  refine ⟨hfl, ?_, ?_⟩
  · have h2 : (cfg.T_final - cfg.T_init) / cfg.P.dt < (numSteps cfg : ℚ) + 1 := by
      rw [hfl]
      have h4 := Int.lt_floor_add_one ((cfg.T_final - cfg.T_init) / cfg.P.dt)
      push_cast at h4 ⊢
      linarith
    have h3 := mul_lt_mul_of_pos_right h2 hdt
    rw [div_mul_cancel₀ _ hdt.ne'] at h3
    exact h3
  · refine ⟨_, _, computeRun_eq cfg lu msolve hdt.ne', ?_, ?_, ?_⟩
    · show countStepSolve (Event.factorize _ :: Event.massSolve _ :: Event.record 0 :: _)
        = (numSteps cfg).toNat + 1
      rw [← hsteps]
      simp only [countStepSolve, List.filter, isStepSolve]
      have h := countStepSolve_runSteps cfg.P (lu (effectiveMatrix cfg.P))
        ((numSteps cfg + 1).toNat) ⟨cfg.y_init, cfg.v_init, initialAccel cfg msolve⟩ 0
      simp only [countStepSolve] at h
      simp [h]
    · show recordTimes (Event.factorize _ :: Event.massSolve _ :: Event.record 0 :: _) = _
      simp only [recordTimes, List.filterMap_cons, recordTime]
      have h := recordTimes_runSteps cfg.P (lu (effectiveMatrix cfg.P))
        ((numSteps cfg + 1).toNat) ⟨cfg.y_init, cfg.v_init, initialAccel cfg msolve⟩ 0
      simp only [recordTimes] at h
      rw [h, hsteps]
      congr 1
      apply List.map_congr_left
      intro i _
      have h3 : 0 + i + 1 = i + 1 := by omega
      rw [h3]
    · show (recordTimes (Event.factorize _ :: Event.massSolve _ :: Event.record 0 :: _)).length
        = (numSteps cfg).toNat + 2
      simp only [recordTimes, List.filterMap_cons, recordTime]
      have h := recordTimes_runSteps cfg.P (lu (effectiveMatrix cfg.P))
        ((numSteps cfg + 1).toNat) ⟨cfg.y_init, cfg.v_init, initialAccel cfg msolve⟩ 0
      simp only [recordTimes] at h
      rw [h]
      simp [hsteps]

/-- Witness for C5 at the scenario of the claim: T_init = 0,
T_final = 0.5/343, dt = 1e-5, giving 146 update calls and 147 recorded
states. -/
theorem step_count_and_recorded_times_witness :
    (numSteps wCfg146).toNat + 1 = 146
      ∧ (numSteps wCfg146).toNat + 2 = 147
      ∧ ∃ st tr, computeRun wCfg146 (fun _ b => b) id = Except.ok (st, tr)
          ∧ countStepSolve tr = (numSteps wCfg146).toNat + 1
          ∧ recordTimes tr
              = 0 :: (List.range ((numSteps wCfg146).toNat + 1)).map
                  (fun jt => wCfg146.P.dt * ((jt + 1 : ℕ) : ℚ))
          ∧ (recordTimes tr).length = (numSteps wCfg146).toNat + 2 :=
  ⟨by rw [numSteps_wCfg146]; decide, by rw [numSteps_wCfg146]; decide,
   (step_count_and_recorded_times wCfg146 (fun _ b => b) id
     (by norm_num [wCfg146, wP]) (by norm_num [wCfg146])).2.2⟩

/-- C6 (amended): the speaker script computes the final error as
100 errornorm/norm when the reference norm is nonzero and returns the
sentinel -1 when it is zero; computeError of the porous script divides
unconditionally, returning the percentage for a nonzero reference norm but
raising ZeroDivisionError, not returning -1, when the reference norm is
zero. -/
theorem error_metric_behavior :
    (∀ e nrm : ℚ, nrm ≠ 0 → speakerFinalError e nrm = 100 * e / nrm)
      ∧ (∀ e : ℚ, speakerFinalError e 0 = -1)
      ∧ (∀ e nrm : ℚ, nrm ≠ 0 → computeError e nrm = Except.ok (100 * e / nrm))
      ∧ (∀ e : ℚ, computeError e 0 = Except.error PyError.zeroDivisionError) := by
  refine ⟨?_, ?_, ?_, ?_⟩
  · intro e nrm h
    simp [speakerFinalError, h]
  · intro e
    simp [speakerFinalError]
  · intro e nrm h
    simp [computeError, pyDiv, h]
  · intro e
    simp [computeError, pyDiv]

/-- Witness for C6 (amended) at concrete norms. -/
theorem error_metric_behavior_witness :
    speakerFinalError 3 2 = 100 * 3 / 2
      ∧ speakerFinalError 3 0 = -1
      ∧ computeError 3 2 = Except.ok (100 * 3 / 2)
      ∧ computeError 3 0 = Except.error PyError.zeroDivisionError :=
  ⟨error_metric_behavior.1 3 2 (by norm_num),
   error_metric_behavior.2.1 3,
   error_metric_behavior.2.2.1 3 2 (by norm_num),
   error_metric_behavior.2.2.2 3⟩

/-- C6 counterexample: computeError of the porous script at reference norm 0
raises ZeroDivisionError and does not return the sentinel -1. -/
theorem computeError_zero_norm_raises :
    computeError 1 0 = Except.error PyError.zeroDivisionError
      ∧ computeError 1 0 ≠ Except.ok (-1) := by
  constructor
  · rfl
  · intro h
    simp [computeError, pyDiv] at h

/-- C7 (amended): A is factorized exactly once per run, and the step function
never reads K, so mutating K after assembly leaves every step result
unchanged; but the loop re-reads M and C at every step to form the effective
load, and there is a mutation of M alone, all other inputs held fixed, that
changes the result of the next step. -/
theorem step_frame_effects :
    (∀ (n : ℕ) (cfg : RunConfig n) (lu : Mat n → Vec n → Vec n)
        (msolve : Vec n → Vec n), cfg.P.dt ≠ 0 →
        ∃ st tr, computeRun cfg lu msolve = Except.ok (st, tr)
          ∧ countFactorize tr = 1)
      ∧ (∀ (n : ℕ) (P : NewmarkParams n) (K2 : Mat n) (s : Vec n → Vec n)
          (st : NewmarkState n) (jt : ℕ),
          newmarkStep { P with K := K2 } s st jt = newmarkStep P s st jt)
      ∧ (∃ P2 : NewmarkParams 1, P2.C = wP.C ∧ P2.K = wP.K ∧ P2.beta = wP.beta
          ∧ P2.gamma = wP.gamma ∧ P2.dt = wP.dt ∧ P2.f = wP.f
          ∧ P2.bcVec = wP.bcVec ∧ P2.bcMat = wP.bcMat
          ∧ newmarkStep P2 wS wSt 0 ≠ newmarkStep wP wS wSt 0) := by
  refine ⟨?_, fun n P K2 s st jt => rfl,
    wPM2, rfl, rfl, rfl, rfl, rfl, rfl, rfl, rfl, ?_⟩
  · intro n cfg lu msolve hdt
    refine ⟨_, _, computeRun_eq cfg lu msolve hdt, ?_⟩
    show countFactorize (Event.factorize _ :: Event.massSolve _ :: Event.record 0 :: _) = 1
    simp only [countFactorize, List.filter, isFactorize]
    have h := countFactorize_runSteps cfg.P (lu (effectiveMatrix cfg.P))
      ((numSteps cfg + 1).toNat) ⟨cfg.y_init, cfg.v_init, initialAccel cfg msolve⟩ 0
    simp only [countFactorize] at h
    simp [h]
  · intro h
    exact wStep_M_sensitive (congrArg (fun q => q.y 0) h).symm

/-- Witness for C7 (amended), discharging the nonzero-step hypothesis of its
factorize-once part at a concrete run. -/
theorem step_frame_effects_witness :
    ∃ st tr, computeRun wCfgShift (fun _ b => b) id = Except.ok (st, tr)
      ∧ countFactorize tr = 1 :=
  step_frame_effects.1 1 wCfgShift (fun _ b => b) id (by norm_num [wCfgShift, wP])

/-- C7 counterexample: with the solver captured from the original assembly
held fixed, mutating the mass matrix from wM to wM2 after assembly changes
the displacement produced by the very next step, because the loop re-reads M
to build the effective load. -/
theorem step_reads_M_counterexample :
    (newmarkStep wP wS wSt 0).y 0 ≠ (newmarkStep wPM2 wS wSt 0).y 0 :=
  wStep_M_sensitive

/-- C8 (amended): there is no validation of the scheme parameters: beta is
hardcoded to 1/4 so beta <= 0 is unreachable, a run with dt = 0 aborts with
ZeroDivisionError at the computation of Nt, and a run with dt < 0 (or any
nonzero dt) is not rejected: A is assembled and factorized and the run
completes. -/
theorem no_parameter_validation {n : ℕ} (cfg : RunConfig n)
    (lu : Mat n → Vec n → Vec n) (msolve : Vec n → Vec n)
    (M C K : Mat n) (dt : ℚ) (f : ℚ → Vec n) (bv : ℚ → Vec n → Vec n)
    (bm : Mat n → Mat n) :
    (scriptParams n M C K dt f bv bm).beta = 1 / 4
      ∧ (cfg.P.dt = 0 →
          computeRun cfg lu msolve = Except.error PyError.zeroDivisionError)
      ∧ (cfg.P.dt ≠ 0 → ∃ st tr, computeRun cfg lu msolve = Except.ok (st, tr)
          ∧ countFactorize tr = 1) := by
  refine ⟨rfl, ?_, ?_⟩
  · intro h
    unfold computeRun
    rw [if_pos h]
  · intro hdt
    refine ⟨_, _, computeRun_eq cfg lu msolve hdt, ?_⟩
    show countFactorize (Event.factorize _ :: Event.massSolve _ :: Event.record 0 :: _) = 1
    simp only [countFactorize, List.filter, isFactorize]
    have h := countFactorize_runSteps cfg.P (lu (effectiveMatrix cfg.P))
      ((numSteps cfg + 1).toNat) ⟨cfg.y_init, cfg.v_init, initialAccel cfg msolve⟩ 0
    simp only [countFactorize] at h
    simp [h]

/-- Witness for C8 (amended) at the concrete invalid steps dt = 0 and
dt = -1. -/
theorem no_parameter_validation_witness :
    computeRun wCfgZero (fun _ b => b) id = Except.error PyError.zeroDivisionError
      ∧ ∃ st tr, computeRun wCfgNeg (fun _ b => b) id = Except.ok (st, tr)
          ∧ countFactorize tr = 1 :=
  ⟨(no_parameter_validation wCfgZero (fun _ b => b) id wM 0 0 1
      (fun _ _ => 0) (fun _ b => b) id).2.1 rfl,
   (no_parameter_validation wCfgNeg (fun _ b => b) id wM 0 0 1
      (fun _ _ => 0) (fun _ b => b) id).2.2 (by norm_num [wCfgNeg, wP])⟩

/-- C8 counterexample: for the invalid step dt = -1 the program does not
abort at setup: the run completes normally and its trace contains the
assembly and factorization of A. -/
theorem negative_dt_no_abort :
    wCfgNeg.P.dt < 0
      ∧ ∃ st tr, computeRun wCfgNeg (fun _ b => b) id = Except.ok (st, tr)
          ∧ countFactorize tr = 1 :=
  ⟨by norm_num [wCfgNeg, wP], _, _, computeRun_wCfgNeg, rfl⟩

/-- C9: the single-step update is deterministic: two invocations with equal
state and loop index under the same parameters and solve produce equal output
triples. -/
theorem step_deterministic {n : ℕ} (P : NewmarkParams n) (s : Vec n → Vec n)
    (st1 st2 : NewmarkState n) (jt1 jt2 : ℕ)
    (hst : st1 = st2) (hjt : jt1 = jt2) :
    newmarkStep P s st1 jt1 = newmarkStep P s st2 jt2 := by
  rw [hst, hjt]

/-- Witness for C9 at a concrete step. -/
theorem step_deterministic_witness :
    newmarkStep wP wS wSt 0 = newmarkStep wP wS wSt 0 :=
  step_deterministic wP wS wSt wSt 0 0 rfl rfl

/-- C10: during step jt the forcing term, the boundary value (the speaker
harmonic) and the exact reference solution are all evaluated at time
dt*(jt+1), anchored at zero; T_init enters the run only through the step
count, and whenever T_init is nonzero the sampled times differ from
T_init + dt*(jt+1). -/
theorem sampling_times_anchored {n : ℕ} (cfg : RunConfig n)
    (lu : Mat n → Vec n → Vec n) (msolve : Vec n → Vec n)
    (hdt : cfg.P.dt ≠ 0) :
    (∃ st tr, computeRun cfg lu msolve = Except.ok (st, tr)
        ∧ sampleLoadTimes tr = (List.range ((numSteps cfg + 1).toNat)).map
            (fun jt => cfg.P.dt * ((jt + 1 : ℕ) : ℚ))
        ∧ applyBCTimes tr = (List.range ((numSteps cfg + 1).toNat)).map
            (fun jt => cfg.P.dt * ((jt + 1 : ℕ) : ℚ))
        ∧ sampleExactTimes tr = (List.range ((numSteps cfg + 1).toNat)).map
            (fun jt => cfg.P.dt * ((jt + 1 : ℕ) : ℚ)))
      ∧ (∀ cfg2 : RunConfig n, cfg2.P = cfg.P → cfg2.y_init = cfg.y_init →
          cfg2.v_init = cfg.v_init → numSteps cfg2 = numSteps cfg →
          computeRun cfg2 lu msolve = computeRun cfg lu msolve)
      ∧ (cfg.T_init ≠ 0 → ∀ jt : ℕ,
          cfg.P.dt * ((jt + 1 : ℕ) : ℚ)
            ≠ cfg.T_init + cfg.P.dt * ((jt + 1 : ℕ) : ℚ)) := by
  refine ⟨?_, ?_, ?_⟩
  · refine ⟨_, _, computeRun_eq cfg lu msolve hdt, ?_, ?_, ?_⟩
    · show sampleLoadTimes (Event.factorize _ :: Event.massSolve _ :: Event.record 0 :: _) = _
      simp only [sampleLoadTimes, List.filterMap_cons, sampleLoadTime]
      rw [show (runSteps cfg.P (lu (effectiveMatrix cfg.P))
          ⟨cfg.y_init, cfg.v_init, initialAccel cfg msolve⟩ 0
          (numSteps cfg + 1).toNat).2.filterMap sampleLoadTime
        = sampleLoadTimes (runSteps cfg.P (lu (effectiveMatrix cfg.P))
          ⟨cfg.y_init, cfg.v_init, initialAccel cfg msolve⟩ 0
          (numSteps cfg + 1).toNat).2 from rfl]
      rw [sampleLoadTimes_runSteps]
      apply List.map_congr_left
      intro i _
      have h3 : 0 + i + 1 = i + 1 := by omega
      rw [h3]
    · show applyBCTimes (Event.factorize _ :: Event.massSolve _ :: Event.record 0 :: _) = _
      simp only [applyBCTimes, List.filterMap_cons, applyBCTime]
      rw [show (runSteps cfg.P (lu (effectiveMatrix cfg.P))
          ⟨cfg.y_init, cfg.v_init, initialAccel cfg msolve⟩ 0
          (numSteps cfg + 1).toNat).2.filterMap applyBCTime
        = applyBCTimes (runSteps cfg.P (lu (effectiveMatrix cfg.P))
          ⟨cfg.y_init, cfg.v_init, initialAccel cfg msolve⟩ 0
          (numSteps cfg + 1).toNat).2 from rfl]
      rw [applyBCTimes_runSteps]
      apply List.map_congr_left
      intro i _
      have h3 : 0 + i + 1 = i + 1 := by omega
      rw [h3]
    · show sampleExactTimes (Event.factorize _ :: Event.massSolve _ :: Event.record 0 :: _) = _
      simp only [sampleExactTimes, List.filterMap_cons, sampleExactTime]
      rw [show (runSteps cfg.P (lu (effectiveMatrix cfg.P))
          ⟨cfg.y_init, cfg.v_init, initialAccel cfg msolve⟩ 0
          (numSteps cfg + 1).toNat).2.filterMap sampleExactTime
        = sampleExactTimes (runSteps cfg.P (lu (effectiveMatrix cfg.P))
          ⟨cfg.y_init, cfg.v_init, initialAccel cfg msolve⟩ 0
          (numSteps cfg + 1).toNat).2 from rfl]
      rw [sampleExactTimes_runSteps]
      apply List.map_congr_left
      intro i _
      have h3 : 0 + i + 1 = i + 1 := by omega
      rw [h3]
  · intro cfg2 hP hy hv hN
    unfold computeRun initialAccel
    rw [hP, hy, hv, hN]
  · intro hTi jt h
    apply hTi
    linarith

/-- Witness for C10 at a concrete run with nonzero T_init. -/
theorem sampling_times_anchored_witness :
    wCfgShift.T_init ≠ 0
      ∧ (wCfgShift.T_init ≠ 0 → ∀ jt : ℕ,
          wCfgShift.P.dt * ((jt + 1 : ℕ) : ℚ)
            ≠ wCfgShift.T_init + wCfgShift.P.dt * ((jt + 1 : ℕ) : ℚ)) :=
  ⟨by norm_num [wCfgShift],
   (sampling_times_anchored wCfgShift (fun _ b => b) id
     (by norm_num [wCfgShift, wP])).2.2⟩

end DMDAcoustic
